import Mathlib

/-!
Verification model of the riparr request-fulfillment pipeline.

The definitions below are shallow embeddings of the Python sources:
  backend/models.py              (RequestStatus, MusicRequest fields)
  backend/download_service.py    (process_request, _search_content,
                                  _move_to_destination, _merge_directories,
                                  _build_destination_path, _sanitize_path)
  backend/streamrip_service.py   (patched_global_download_semaphore,
                                  download_album_async verification, smart_search)
  backend/musicbrainz_service.py (clean_search_query)
-/

namespace Riparr

/-- Request lifecycle states, from the RequestStatus enum in backend/models.py. -/
inductive RequestStatus where
  | pending
  | searching
  | downloading
  | processing
  | completed
  | failed
deriving DecidableEq

open RequestStatus

/-- Statuses persisted (db.session.commit) during one exception-free run of
DownloadService.process_request, as a function of each step's outcome:
_search_content result, _download_content result, the PICARD_ENABLED flag,
the _process_metadata result and the _move_to_destination result.
A metadata-processing failure only prints a warning and the run continues,
so metadataOk does not influence the persisted statuses. -/
def runTrace (searchOk downloadOk picardEnabled metadataOk moveOk : Bool) :
    List RequestStatus :=
  searching ::
    (if !searchOk then [failed]
     else downloading ::
       (if !downloadOk then [failed]
        else (if picardEnabled then [processing] else []) ++
          (if !moveOk then [failed] else [completed])))

/-- Statuses persisted by one run of process_request when an unanticipated
exception may interrupt it.  exnAt = some n means the exception fires just
before the n-th persist of the exception-free run; the except-branch of
process_request then persists FAILED once and returns.  Python cannot raise
after the final persist of the run: the only code after it is
_emit_status_update, which swallows its own exceptions, and the return. -/
def processTrace (searchOk downloadOk picardEnabled metadataOk moveOk : Bool)
    (exnAt : Option Nat) : List RequestStatus :=
  let t := runTrace searchOk downloadOk picardEnabled metadataOk moveOk
  match exnAt with
  | none => t
  | some n => if n < t.length then t.take n ++ [failed] else t

/-- Full observed status sequence of a request: models.py creates the row with
status = PENDING, and the pipeline appends the statuses persisted by
process_request. -/
def observedStatuses (searchOk downloadOk picardEnabled metadataOk moveOk : Bool)
    (exnAt : Option Nat) : List RequestStatus :=
  pending :: processTrace searchOk downloadOk picardEnabled metadataOk moveOk exnAt

/-- Non-terminal states of the pipeline, in pipeline order. -/
def activeStates : List RequestStatus := [pending, searching, downloading, processing]

/-- The complete status chain with the optional PROCESSING step. -/
def fullChain : List RequestStatus :=
  [pending, searching, downloading, processing, completed]

/-- The complete status chain when PROCESSING is skipped. -/
def shortChain : List RequestStatus := [pending, searching, downloading, completed]

/-- A status sequence is valid when it is a prefix of one of the two complete
chains or stops early with a single final FAILED, and no element before the
last one is terminal. -/
def validTrace (t : List RequestStatus) : Prop :=
  (t <+: fullChain ∨ t <+: shortChain ∨
    (t.getLast? = some failed ∧ t.dropLast <+: activeStates)) ∧
  ∀ s ∈ t.dropLast, s ≠ completed ∧ s ≠ failed

instance validTrace.instDecidable : DecidablePred validTrace := fun t => by
  unfold validTrace; infer_instance

theorem runTrace_length_le (a b c d e : Bool) : (runTrace a b c d e).length ≤ 4 := by
  revert a b c d e; decide

/-- C1: for every run of process_request, the persisted status sequence is a
prefix of PENDING, SEARCHING, DOWNLOADING, [PROCESSING], COMPLETED, or stops
early at FAILED, and no status persisted before the final one is COMPLETED
or FAILED. -/
theorem process_request_status_monotone
    (searchOk downloadOk picardEnabled metadataOk moveOk : Bool) (exnAt : Option Nat) :
    validTrace (observedStatuses searchOk downloadOk picardEnabled metadataOk moveOk exnAt) := by
  cases exnAt with
  | none =>
    revert searchOk downloadOk picardEnabled metadataOk moveOk; decide
  | some n =>
    by_cases h : n < 4
    · interval_cases n <;>
        (revert searchOk downloadOk picardEnabled metadataOk moveOk; decide)
    · have hlen := runTrace_length_le searchOk downloadOk picardEnabled metadataOk moveOk
      have hnot : ¬ n < (runTrace searchOk downloadOk picardEnabled metadataOk moveOk).length := by
        omega
      have : observedStatuses searchOk downloadOk picardEnabled metadataOk moveOk (some n) =
          observedStatuses searchOk downloadOk picardEnabled metadataOk moveOk none := by
        simp [observedStatuses, processTrace, hnot]
      rw [this]
      clear this hnot hlen h
      revert searchOk downloadOk picardEnabled metadataOk moveOk; decide

/-! ### Query normalization: MusicBrainzService.clean_search_query -/

/-- Model of the Python regex class \w (word characters) on the ASCII range:
letters, digits and the underscore. -/
def isPyWordChar (c : Char) : Bool := c.isAlpha || c.isDigit || c = '_'

/-- Model of Python whitespace (regex \s and str.split) on the ASCII range. -/
def isPySpaceChar (c : Char) : Bool :=
  c = ' ' || c = '\t' || c = '\n' || c = '\r' || c = '\x0b' || c = '\x0c'

/-- Characters kept by re.sub applied with the pattern class excluding
word characters, whitespace and the hyphen. -/
def keepChar (c : Char) : Bool := isPyWordChar c || isPySpaceChar c || c = '-'

/-- One step of Python str.split(): fold a character onto the list of
chunks split at whitespace (empty chunks are filtered out afterwards). -/
def splitStep (c : Char) (acc : List (List Char)) : List (List Char) :=
  if isPySpaceChar c then [] :: acc
  else
    match acc with
    | [] => [[c]]
    | w :: ws => (c :: w) :: ws

/-- Chunks of a character list split at whitespace boundaries, possibly empty. -/
def splitChunks (l : List Char) : List (List Char) := l.foldr splitStep [[]]

/-- Python str.split() with no arguments: whitespace-separated nonempty words. -/
def pySplit (l : List Char) : List (List Char) :=
  (splitChunks l).filter (fun w => !w.isEmpty)

/-- Python str.join with a single-space separator. -/
def joinSpace : List (List Char) → List Char
  | [] => []
  | [w] => w
  | w :: ws => w ++ ' ' :: joinSpace ws

/-- Model of MusicBrainzService.clean_search_query: re.sub removes every
character that is not a word character, whitespace or hyphen, then
str.split / str.join collapse whitespace runs and trim the ends. -/
def clean_search_query (q : String) : String :=
  (joinSpace (pySplit (q.toList.filter keepChar))).asString

/-- A word produced by splitting: nonempty and free of whitespace. -/
def solidChar (c : Char) : Bool := keepChar c && !isPySpaceChar c

def solidWord (w : List Char) : Bool := !w.isEmpty && w.all solidChar

theorem splitChunks_ne_nil (l : List Char) : splitChunks l ≠ [] := by
  induction l with
  | nil => simp [splitChunks]
  | cons c t ih =>
    show splitStep c (splitChunks t) ≠ []
    unfold splitStep
    split
    · simp
    · match h : splitChunks t with
      | [] => exact absurd h ih
      | w :: ws => simp

theorem splitChunks_mem (l : List Char) (w : List Char) (hw : w ∈ splitChunks l)
    (c : Char) (hc : c ∈ w) : c ∈ l ∧ isPySpaceChar c = false := by
  induction l generalizing w with
  | nil =>
    simp [splitChunks] at hw
    subst hw
    exact absurd hc (List.not_mem_nil c)
  | cons a t ih =>
    have hw2 : w ∈ splitStep a (splitChunks t) := hw
    unfold splitStep at hw2
    split at hw2
    · rcases List.mem_cons.mp hw2 with h | h
      · subst h; exact absurd hc (List.not_mem_nil c)
      · have := ih w h hc
        exact ⟨List.mem_cons_of_mem a this.1, this.2⟩
    · rename_i hsp
      match hsc : splitChunks t with
      | [] => exact absurd hsc (splitChunks_ne_nil t)
      | v :: vs =>
        rw [hsc] at hw2
        rcases List.mem_cons.mp hw2 with h | h
        · subst h
          rcases List.mem_cons.mp hc with h | h
          · subst h
            refine ⟨by simp, ?_⟩
            simpa using hsp
          · have := ih v (by rw [hsc]; exact List.mem_cons_self v vs) h
            exact ⟨List.mem_cons_of_mem a this.1, this.2⟩
        · have := ih w (by rw [hsc]; exact List.mem_cons_of_mem v h) hc
          exact ⟨List.mem_cons_of_mem a this.1, this.2⟩

theorem pySplit_solid (l : List Char) (hl : ∀ c ∈ l, keepChar c = true)
    (w : List Char) (hw : w ∈ pySplit l) : solidWord w = true := by
  unfold pySplit at hw
  have hmem := List.mem_filter.mp hw
  have hne : w.isEmpty = false := by simpa using hmem.2
  unfold solidWord
  rw [hne]
  simp only [Bool.not_false, Bool.true_and]
  rw [List.all_eq_true]
  intro c hc
  have h2 := splitChunks_mem l w hmem.1 c hc
  simp [solidChar, h2.2, hl c h2.1]

theorem splitChunks_solid_append (w l : List Char) (hw : ∀ c ∈ w, isPySpaceChar c = false)
    (a : List Char) (as : List (List Char)) (h : splitChunks l = a :: as) :
    splitChunks (w ++ l) = (w ++ a) :: as := by
  induction w with
  | nil => simpa using h
  | cons c t ih =>
    have hc : isPySpaceChar c = false := hw c (List.mem_cons_self c t)
    have ht : ∀ x ∈ t, isPySpaceChar x = false :=
      fun x hx => hw x (List.mem_cons_of_mem c hx)
    show splitStep c (splitChunks (t ++ l)) = ((c :: t) ++ a) :: as
    rw [ih ht]
    unfold splitStep
    rw [hc]
    simp

theorem splitChunks_space_cons (l : List Char) :
    splitChunks (' ' :: l) = [] :: splitChunks l := by
  show splitStep ' ' (splitChunks l) = [] :: splitChunks l
  unfold splitStep
  norm_num [isPySpaceChar]

theorem pySplit_joinSpace (ws : List (List Char))
    (h : ∀ w ∈ ws, solidWord w = true) : pySplit (joinSpace ws) = ws := by
  induction ws with
  | nil => rfl
  | cons w ws ih =>
    have hw := h w (List.mem_cons_self w ws)
    have hwne : w.isEmpty = false := by
      have h1 := hw
      simp [solidWord] at h1
      simpa using h1.1
    have hwsolid : ∀ c ∈ w, isPySpaceChar c = false := by
      intro c hc
      have h2 := hw
      simp [solidWord, List.all_eq_true] at h2
      have h3 := h2.2 c hc
      simp [solidChar] at h3
      exact h3.2
    cases ws with
    | nil =>
      show pySplit (joinSpace [w]) = [w]
      have hj : joinSpace [w] = w := rfl
      rw [hj]
      have := splitChunks_solid_append w [] hwsolid [] [] rfl
      unfold pySplit
      rw [show w ++ ([] : List Char) = w from by simp] at this
      rw [this]
      simp [hwne]
    | cons v vs =>
      have ihrest := ih (fun x hx => h x (List.mem_cons_of_mem w hx))
      have hjoin : joinSpace (w :: v :: vs) = w ++ ' ' :: joinSpace (v :: vs) := rfl
      rw [hjoin]
      match hsc : splitChunks (joinSpace (v :: vs)) with
      | [] => exact absurd hsc (splitChunks_ne_nil _)
      | a :: as =>
        have hsp : splitChunks (' ' :: joinSpace (v :: vs)) = [] :: a :: as := by
          rw [splitChunks_space_cons, hsc]
        have happ := splitChunks_solid_append w (' ' :: joinSpace (v :: vs)) hwsolid
          [] (a :: as) hsp
        unfold pySplit
        rw [happ]
        rw [show w ++ ([] : List Char) = w from by simp]
        have : (a :: as).filter (fun x => !x.isEmpty) = v :: vs := by
          have : pySplit (joinSpace (v :: vs)) = v :: vs := ihrest
          unfold pySplit at this
          rw [hsc] at this
          exact this
        simp [hwne, this]

theorem mem_joinSpace (ws : List (List Char)) (c : Char) (hc : c ∈ joinSpace ws) :
    c = ' ' ∨ ∃ w ∈ ws, c ∈ w := by
  induction ws with
  | nil => exact absurd hc (List.not_mem_nil c)
  | cons w ws ih =>
    cases ws with
    | nil =>
      right
      exact ⟨w, List.mem_cons_self w [], hc⟩
    | cons v vs =>
      have : c ∈ w ++ ' ' :: joinSpace (v :: vs) := hc
      rcases List.mem_append.mp this with h | h
      · exact Or.inr ⟨w, List.mem_cons_self w _, h⟩
      · rcases List.mem_cons.mp h with h | h
        · exact Or.inl h
        · rcases ih h with h | ⟨u, hu, hcu⟩
          · exact Or.inl h
          · exact Or.inr ⟨u, List.mem_cons_of_mem w hu, hcu⟩

theorem filter_joinSpace (ws : List (List Char))
    (h : ∀ w ∈ ws, solidWord w = true) :
    (joinSpace ws).filter keepChar = joinSpace ws := by
  rw [List.filter_eq_self]
  intro c hc
  rcases mem_joinSpace ws c hc with h0 | ⟨w, hw, hcw⟩
  · subst h0; decide
  · have hsw := h w hw
    simp [solidWord, List.all_eq_true] at hsw
    have h3 := hsw.2 c hcw
    simp [solidChar] at h3
    exact h3.1

/-- C6: clean_search_query is idempotent. -/
theorem clean_search_query_idempotent (q : String) :
    clean_search_query (clean_search_query q) = clean_search_query q := by
  unfold clean_search_query
  have hws : ∀ w ∈ pySplit (q.toList.filter keepChar), solidWord w = true :=
    pySplit_solid _ (fun c hc => (List.mem_filter.mp hc).2)
  have htl : (List.asString (joinSpace (pySplit (q.toList.filter keepChar)))).toList =
      joinSpace (pySplit (q.toList.filter keepChar)) := rfl
  rw [htl, filter_joinSpace _ hws, pySplit_joinSpace _ hws]

theorem word_char_not_space (c : Char) (h : isPyWordChar c = true) :
    isPySpaceChar c = false := by
  by_contra hne
  have hsp : isPySpaceChar c = true := by simpa using hne
  have h2 : c = ' ' ∨ c = '\t' ∨ c = '\n' ∨ c = '\r' ∨ c = '\x0b' ∨ c = '\x0c' := by
    simpa [isPySpaceChar, or_assoc] using hsp
  rcases h2 with rfl | rfl | rfl | rfl | rfl | rfl <;> exact absurd h (by decide)

theorem splitChunks_mem_of (l : List Char) (c : Char) (hc : c ∈ l)
    (hsp : isPySpaceChar c = false) : ∃ w ∈ splitChunks l, c ∈ w := by
  induction l with
  | nil => exact absurd hc (List.not_mem_nil c)
  | cons a t ih =>
    show ∃ w ∈ splitStep a (splitChunks t), c ∈ w
    unfold splitStep
    split
    · rename_i ha
      have hca : c ≠ a := by
        rintro rfl
        rw [ha] at hsp
        cases hsp
      have hct : c ∈ t := by
        rcases List.mem_cons.mp hc with h | h
        · exact absurd h hca
        · exact h
      rcases ih hct with ⟨w, hw, hcw⟩
      exact ⟨w, List.mem_cons_of_mem [] hw, hcw⟩
    · match hsc : splitChunks t with
      | [] => exact absurd hsc (splitChunks_ne_nil t)
      | v :: vs =>
        rcases List.mem_cons.mp hc with h | h
        · exact ⟨a :: v, List.mem_cons_self _ _, by rw [h]; exact List.mem_cons_self a v⟩
        · rcases ih h with ⟨w, hw, hcw⟩
          rw [hsc] at hw
          rcases List.mem_cons.mp hw with h2 | h2
          · refine ⟨a :: v, List.mem_cons_self _ _, ?_⟩
            rw [h2] at hcw
            exact List.mem_cons_of_mem a hcw
          · exact ⟨w, List.mem_cons_of_mem _ h2, hcw⟩

theorem mem_joinSpace_of (ws : List (List Char)) (w : List Char) (hw : w ∈ ws)
    (c : Char) (hc : c ∈ w) : c ∈ joinSpace ws := by
  induction ws with
  | nil => exact absurd hw (List.not_mem_nil w)
  | cons v vs ih =>
    cases vs with
    | nil =>
      rcases List.mem_cons.mp hw with h | h
      · subst h; exact hc
      · exact absurd h (List.not_mem_nil w)
    | cons u us =>
      show c ∈ v ++ ' ' :: joinSpace (u :: us)
      rcases List.mem_cons.mp hw with h | h
      · subst h
        exact List.mem_append.mpr (Or.inl hc)
      · exact List.mem_append.mpr (Or.inr (List.mem_cons_of_mem ' ' (ih h)))

/-- C7 counterexample: clean_search_query preserves the underscore, which is
neither a letter, nor a digit, nor whitespace, nor a hyphen, so the claim
that no other character survives is false. -/
theorem clean_search_query_keeps_underscore :
    clean_search_query "_" = "_" ∧ Char.isAlpha '_' = false ∧
      Char.isDigit '_' = false ∧ isPySpaceChar '_' = false ∧ '_' ≠ '-' := by
  refine ⟨by decide, by decide, by decide, by decide, by decide⟩

/-- C7 (amended): clean_search_query strips all characters except letters,
digits, underscores, whitespace and hyphens (every output character is a word
character, a hyphen or a single space); the output is a fixed point of
split-and-rejoin, so whitespace runs are collapsed to one space and the ends
are trimmed; and every word character or hyphen of the input survives. -/
theorem clean_search_query_charset (q : String) :
    (∀ c ∈ (clean_search_query q).toList,
        isPyWordChar c = true ∨ c = '-' ∨ c = ' ') ∧
    joinSpace (pySplit (clean_search_query q).toList) = (clean_search_query q).toList ∧
    (∀ c ∈ q.toList, (isPyWordChar c = true ∨ c = '-') →
        c ∈ (clean_search_query q).toList) := by
  have hws : ∀ w ∈ pySplit (q.toList.filter keepChar), solidWord w = true :=
    pySplit_solid _ (fun c hc => (List.mem_filter.mp hc).2)
  have htl : (clean_search_query q).toList =
      joinSpace (pySplit (q.toList.filter keepChar)) := rfl
  refine ⟨?_, ?_, ?_⟩
  · intro c hc
    rw [htl] at hc
    rcases mem_joinSpace _ c hc with h0 | ⟨w, hw, hcw⟩
    · exact Or.inr (Or.inr h0)
    · have hsw := hws w hw
      simp [solidWord, List.all_eq_true] at hsw
      have h3 := hsw.2 c hcw
      simp [solidChar] at h3
      have hk := h3.1
      simp [keepChar, h3.2] at hk
      rcases hk with hk | hk
      · exact Or.inl hk
      · exact Or.inr (Or.inl hk)
  · rw [htl, pySplit_joinSpace _ hws]
  · intro c hc hword
    have hkeep : keepChar c = true := by
      rcases hword with h | h
      · simp [keepChar, h]
      · simp [keepChar, h]
    have hsp : isPySpaceChar c = false := by
      rcases hword with h | h
      · exact word_char_not_space c h
      · subst h; decide
    have hcf : c ∈ q.toList.filter keepChar := List.mem_filter.mpr ⟨hc, hkeep⟩
    rcases splitChunks_mem_of _ c hcf hsp with ⟨w, hw, hcw⟩
    have hwp : w ∈ pySplit (q.toList.filter keepChar) := by
      unfold pySplit
      refine List.mem_filter.mpr ⟨hw, ?_⟩
      simp
      rintro rfl
      exact absurd hcw (List.not_mem_nil c)
    rw [htl]
    exact mem_joinSpace_of _ w hwp c hcw

/-- Closed witness for clean_search_query_charset at a concrete query. -/
theorem clean_search_query_charset_witness :
    (isPyWordChar 'a' = true ∨ 'a' = '-' ∨ 'a' = ' ') ∧
      'a' ∈ (clean_search_query "a !b").toList :=
  ⟨(clean_search_query_charset "a !b").1 'a' (by decide),
   (clean_search_query_charset "a !b").2.2 'a' (by decide) (by decide)⟩

/-! ### File trees and the placement / merge engine
DownloadService._merge_directories and DownloadService._move_to_destination
operate on on-disk directory trees.  A tree is a file or a directory holding
named entries; entry order models os.listdir order, and a real directory
never holds two entries with the same name. -/

/-- A file-system tree: a regular file or a directory of named entries. -/
inductive FS where
  | file : FS
  | dir : List (String × FS) → FS

/-- First entry value with the given name (os.path.exists / lookup). -/
def lookupEntry : List (String × FS) → String → Option FS
  | [], _ => none
  | (m, v) :: rest, n => if m = n then some v else lookupEntry rest n

/-- Replace the value of the first entry with the given name, keeping order. -/
def setEntry : List (String × FS) → String → FS → List (String × FS)
  | [], _, _ => []
  | (m, w) :: rest, n, v =>
    if m = n then (m, v) :: rest else (m, w) :: setEntry rest n v

mutual

/-- Model of DownloadService._merge_directories src dst.  The source is always
a directory at every call site; merging into a file path fails as soon as an
entry has to be moved below it (NotADirectoryError), and a source file meeting
a destination directory fails inside mergeEntries (os.remove of a directory
raises IsADirectoryError). -/
def mergeInto : FS → FS → Except Unit FS
  | FS.dir es, FS.dir ed => Except.map FS.dir (mergeEntries es ed)
  | FS.dir es, FS.file =>
    match es with
    | [] => Except.ok FS.file
    | _ :: _ => Except.error ()
  | FS.file, _ => Except.error ()

/-- The loop body of _merge_directories: walk the source entries in order,
moving entries absent from the destination, recursing into directories
present on both sides, and replacing files present on both sides. -/
def mergeEntries : List (String × FS) → List (String × FS) → Except Unit (List (String × FS))
  | [], ed => Except.ok ed
  | (n, sv) :: rest, ed =>
    match lookupEntry ed n with
    | none => mergeEntries rest (ed ++ [(n, sv)])
    | some dv =>
      match sv with
      | FS.dir c =>
        match mergeInto (FS.dir c) dv with
        | Except.error e => Except.error e
        | Except.ok m => mergeEntries rest (setEntry ed n m)
      | FS.file =>
        match dv with
        | FS.file => mergeEntries rest (setEntry ed n FS.file)
        | FS.dir _ => Except.error ()

end

mutual

/-- Well-formed tree: no directory holds two entries with the same name. -/
def wfFS : FS → Bool
  | FS.file => true
  | FS.dir es => wfList es

def wfList : List (String × FS) → Bool
  | [] => true
  | (n, v) :: rest =>
    !(decide (n ∈ rest.map Prod.fst)) && wfFS v && wfList rest

end

/-- Keys of an entry list, in order. -/
def entryKeys (es : List (String × FS)) : List String := es.map Prod.fst

theorem lookupEntry_eq_none_iff (es : List (String × FS)) (n : String) :
    lookupEntry es n = none ↔ n ∉ entryKeys es := by
  induction es with
  | nil => simp [lookupEntry, entryKeys]
  | cons p rest ih =>
    obtain ⟨m, v⟩ := p
    by_cases h : m = n
    · subst h
      simp [lookupEntry, entryKeys]
    · simp [lookupEntry, h, entryKeys, ih, Ne.symm h]

theorem lookupEntry_some_mem (es : List (String × FS)) (n : String) (v : FS)
    (h : lookupEntry es n = some v) : (n, v) ∈ es := by
  induction es with
  | nil => simp [lookupEntry] at h
  | cons p rest ih =>
    obtain ⟨m, w⟩ := p
    unfold lookupEntry at h
    split at h
    · rename_i hm
      subst hm
      injection h with h
      subst h
      exact List.mem_cons_self _ _
    · exact List.mem_cons_of_mem _ (ih h)

theorem lookupEntry_append (es fs : List (String × FS)) (n : String) :
    lookupEntry (es ++ fs) n =
      match lookupEntry es n with
      | some v => some v
      | none => lookupEntry fs n := by
  induction es with
  | nil => simp [lookupEntry]
  | cons p rest ih =>
    obtain ⟨m, v⟩ := p
    by_cases h : m = n <;> simp [lookupEntry, h, ih]

theorem lookupEntry_middle (a b : List (String × FS)) (n : String) (v : FS)
    (h : n ∉ entryKeys a) : lookupEntry (a ++ (n, v) :: b) n = some v := by
  rw [lookupEntry_append]
  rw [(lookupEntry_eq_none_iff a n).mpr h]
  simp [lookupEntry]

theorem lookupEntry_some_decompose (es : List (String × FS)) (n : String) (v : FS)
    (h : lookupEntry es n = some v) :
    ∃ a b, es = a ++ (n, v) :: b ∧ n ∉ entryKeys a := by
  induction es with
  | nil => simp [lookupEntry] at h
  | cons p rest ih =>
    obtain ⟨m, w⟩ := p
    unfold lookupEntry at h
    split at h
    · rename_i hm
      subst hm
      injection h with h
      subst h
      exact ⟨[], rest, rfl, by simp [entryKeys]⟩
    · rename_i hm
      rcases ih h with ⟨a, b, hab, hna⟩
      refine ⟨(m, w) :: a, b, by rw [hab]; rfl, ?_⟩
      simp [entryKeys] at hna ⊢
      exact ⟨fun he => hm he.symm, hna⟩

theorem setEntry_keys (es : List (String × FS)) (n : String) (v : FS) :
    entryKeys (setEntry es n v) = entryKeys es := by
  induction es with
  | nil => rfl
  | cons p rest ih =>
    obtain ⟨m, w⟩ := p
    by_cases h : m = n <;> simp [setEntry, h, entryKeys] at ih ⊢ <;> exact ih

theorem setEntry_self (es : List (String × FS)) (n : String) (v : FS)
    (h : lookupEntry es n = some v) : setEntry es n v = es := by
  induction es with
  | nil => rfl
  | cons p rest ih =>
    obtain ⟨m, w⟩ := p
    unfold lookupEntry at h
    unfold setEntry
    split
    · rename_i hm
      rw [hm] at h ⊢
      simp at h
      rw [h]
    · rename_i hm
      rw [if_neg hm] at h
      rw [ih h]

theorem setEntry_middle (a b : List (String × FS)) (n : String) (v w : FS)
    (h : n ∉ entryKeys a) : setEntry (a ++ (n, v) :: b) n w = a ++ (n, w) :: b := by
  induction a with
  | nil => simp [setEntry]
  | cons p rest ih =>
    obtain ⟨m, u⟩ := p
    simp [entryKeys] at h
    have hm : m ≠ n := fun he => h.1 he.symm
    show setEntry ((m, u) :: (rest ++ (n, v) :: b)) n w = (m, u) :: (rest ++ (n, w) :: b)
    unfold setEntry
    rw [if_neg hm]
    rw [ih (by simpa [entryKeys] using h.2)]

theorem wfList_cons (n : String) (v : FS) (rest : List (String × FS)) :
    wfList ((n, v) :: rest) = true ↔
      n ∉ entryKeys rest ∧ wfFS v = true ∧ wfList rest = true := by
  simp [wfList, entryKeys, and_assoc]

theorem wfList_keys_nodup (es : List (String × FS)) (h : wfList es = true) :
    (entryKeys es).Nodup := by
  induction es with
  | nil => simp [entryKeys]
  | cons p rest ih =>
    obtain ⟨n, v⟩ := p
    rcases (wfList_cons n v rest).mp h with ⟨h1, _, h3⟩
    rw [show entryKeys ((n, v) :: rest) = n :: entryKeys rest from rfl]
    exact List.nodup_cons.mpr ⟨h1, ih h3⟩

theorem wfList_mem_wf (es : List (String × FS)) (h : wfList es = true)
    (n : String) (v : FS) (hm : (n, v) ∈ es) : wfFS v = true := by
  induction es with
  | nil => cases hm
  | cons p rest ih =>
    obtain ⟨m, w⟩ := p
    rcases (wfList_cons m w rest).mp h with ⟨_, h2, h3⟩
    rcases List.mem_cons.mp hm with he | he
    · rw [Prod.mk.injEq] at he
      rw [he.2]
      exact h2
    · exact ih h3 he

theorem wfList_append_single (ed : List (String × FS)) (n : String) (v : FS)
    (hed : wfList ed = true) (hv : wfFS v = true) (hn : n ∉ entryKeys ed) :
    wfList (ed ++ [(n, v)]) = true := by
  induction ed with
  | nil =>
    rw [List.nil_append]
    rw [wfList_cons]
    exact ⟨by simp [entryKeys], hv, rfl⟩
  | cons p rest ih =>
    obtain ⟨m, w⟩ := p
    rcases (wfList_cons m w rest).mp hed with ⟨h1, h2, h3⟩
    simp only [entryKeys, List.map_cons, List.mem_cons] at hn
    push_neg at hn
    rw [show ((m, w) :: rest) ++ [(n, v)] = (m, w) :: (rest ++ [(n, v)]) from rfl]
    rw [wfList_cons]
    refine ⟨?_, h2, ih h3 (by simpa [entryKeys] using hn.2)⟩
    simp only [entryKeys, List.map_append, List.map_cons, List.map_nil, List.mem_append,
      List.mem_singleton]
    push_neg
    exact ⟨by simpa [entryKeys] using h1, fun he => hn.1 he.symm⟩

theorem wf_setEntry (ed : List (String × FS)) (n : String) (v : FS)
    (hed : wfList ed = true) (hv : wfFS v = true) : wfList (setEntry ed n v) = true := by
  induction ed with
  | nil => rfl
  | cons p rest ih =>
    obtain ⟨m, w⟩ := p
    rcases (wfList_cons m w rest).mp hed with ⟨h1, h2, h3⟩
    unfold setEntry
    split
    · rw [wfList_cons]
      exact ⟨h1, hv, h3⟩
    · rw [wfList_cons]
      refine ⟨?_, h2, ih h3⟩
      rw [show entryKeys (setEntry rest n v) = entryKeys rest from setEntry_keys rest n v]
      exact h1

mutual

theorem wf_mergeInto (s d r : FS) (hs : wfFS s = true) (hd : wfFS d = true)
    (h : mergeInto s d = Except.ok r) : wfFS r = true := by
  cases s with
  | file =>
    unfold mergeInto at h
    exact Except.noConfusion h
  | dir es =>
    cases d with
    | file =>
      unfold mergeInto at h
      cases es with
      | nil =>
        injection h with h
        rw [← h]
        rfl
      | cons p rest => exact Except.noConfusion h
    | dir ed =>
      unfold mergeInto at h
      cases hme : mergeEntries es ed with
      | error e =>
        rw [hme] at h
        exact Except.noConfusion h
      | ok er =>
        rw [hme] at h
        simp only [Except.map] at h
        injection h with h
        rw [← h]
        exact wf_mergeEntries es ed er hs hd hme

theorem wf_mergeEntries (es ed er : List (String × FS)) (hs : wfList es = true)
    (hd : wfList ed = true) (h : mergeEntries es ed = Except.ok er) :
    wfList er = true := by
  match es with
  | [] =>
    unfold mergeEntries at h
    injection h with h
    rw [← h]
    exact hd
  | (n, sv) :: rest =>
    rcases (wfList_cons n sv rest).mp hs with ⟨h1, h2, h3⟩
    unfold mergeEntries at h
    split at h
    · rename_i hlk
      have hn : n ∉ entryKeys ed := (lookupEntry_eq_none_iff ed n).mp hlk
      exact wf_mergeEntries rest (ed ++ [(n, sv)]) er h3
        (wfList_append_single ed n sv hd h2 hn) h
    · rename_i dv hlk
      split at h
      · rename_i c
        split at h
        · exact Except.noConfusion h
        · rename_i m hmi
          have hdv : wfFS dv = true :=
            wfList_mem_wf ed hd n dv (lookupEntry_some_mem ed n dv hlk)
          have hm : wfFS m = true := wf_mergeInto (FS.dir c) dv m h2 hdv hmi
          exact wf_mergeEntries rest (setEntry ed n m) er h3 (wf_setEntry ed n m hd hm) h
      · split at h
        · exact wf_mergeEntries rest (setEntry ed n FS.file) er h3
            (wf_setEntry ed n FS.file hd rfl) h
        · exact Except.noConfusion h

end

theorem mergeEntries_nil (ed : List (String × FS)) :
    mergeEntries [] ed = Except.ok ed := by
  unfold mergeEntries
  rfl

theorem mergeInto_dir_dir (es ed : List (String × FS)) :
    mergeInto (FS.dir es) (FS.dir ed) = Except.map FS.dir (mergeEntries es ed) := by
  unfold mergeInto
  rfl

theorem mergeEntries_cons_none (n : String) (sv : FS) (rest ed : List (String × FS))
    (hlk : lookupEntry ed n = none) :
    mergeEntries ((n, sv) :: rest) ed = mergeEntries rest (ed ++ [(n, sv)]) := by
  conv_lhs => unfold mergeEntries
  split
  · rfl
  · rename_i dv heq
    rw [hlk] at heq
    exact Option.noConfusion heq

theorem mergeEntries_cons_dir (n : String) (c rest ed : List (String × FS))
    (dv m : FS) (hlk : lookupEntry ed n = some dv)
    (hmi : mergeInto (FS.dir c) dv = Except.ok m) :
    mergeEntries ((n, FS.dir c) :: rest) ed = mergeEntries rest (setEntry ed n m) := by
  conv_lhs => unfold mergeEntries
  split
  · rename_i heq
    rw [hlk] at heq
    exact Option.noConfusion heq
  · rename_i dv2 heq
    rw [hlk] at heq
    injection heq with heq
    subst heq
    split
    · rename_i e hmi2
      injection hmi2 with hmi2
      subst hmi2
      split
      · rename_i err herr
        rw [hmi] at herr
        exact Except.noConfusion herr
      · rename_i m2 hok
        rw [hmi] at hok
        injection hok with hok
        subst hok
        rfl
    · rename_i hmi2
      exact FS.noConfusion hmi2

theorem mergeEntries_cons_file (n : String) (rest ed : List (String × FS))
    (hlk : lookupEntry ed n = some FS.file) :
    mergeEntries ((n, FS.file) :: rest) ed =
      mergeEntries rest (setEntry ed n FS.file) := by
  conv_lhs => unfold mergeEntries
  split
  · rename_i heq
    rw [hlk] at heq
    exact Option.noConfusion heq
  · rename_i dv2 heq
    rw [hlk] at heq
    injection heq with heq
    subst heq
    rfl

theorem lookupEntry_of_mem_nodup (c : List (String × FS)) (hnd : (entryKeys c).Nodup)
    (n : String) (v : FS) (hm : (n, v) ∈ c) : lookupEntry c n = some v := by
  induction c with
  | nil => cases hm
  | cons p rest ih =>
    obtain ⟨m, w⟩ := p
    rcases List.mem_cons.mp hm with he | he
    · rw [Prod.mk.injEq] at he
      obtain ⟨he1, he2⟩ := he
      subst he1
      subst he2
      unfold lookupEntry
      simp
    · have hnk : n ∈ entryKeys rest := by
        have := List.mem_map_of_mem Prod.fst he
        simpa [entryKeys] using this
      have hnd2 : (n :: entryKeys rest).Nodup → True := fun _ => trivial
      have hcons : entryKeys ((m, w) :: rest) = m :: entryKeys rest := rfl
      rw [hcons] at hnd
      have hmn : m ≠ n := by
        rintro rfl
        exact (List.nodup_cons.mp hnd).1 hnk
      unfold lookupEntry
      rw [if_neg hmn]
      exact ih (List.nodup_cons.mp hnd).2 he

theorem mergeEntries_self_aux (c t : List (String × FS)) (hwf : wfList c = true)
    (hsuf : t <:+ c) : mergeEntries t c = Except.ok c := by
  match t with
  | [] => exact mergeEntries_nil c
  | (n, v) :: t2 =>
    have hmem : (n, v) ∈ c := hsuf.subset (List.mem_cons_self _ _)
    have hlk : lookupEntry c n = some v :=
      lookupEntry_of_mem_nodup c (wfList_keys_nodup c hwf) n v hmem
    have hsuf2 : t2 <:+ c := (List.suffix_cons (n, v) t2).trans hsuf
    cases v with
    | file =>
      rw [mergeEntries_cons_file n t2 c hlk]
      rw [setEntry_self c n FS.file hlk]
      exact mergeEntries_self_aux c t2 hwf hsuf2
    | dir c2 =>
      have hwf2 : wfFS (FS.dir c2) = true := wfList_mem_wf c hwf n (FS.dir c2) hmem
      have hself : mergeEntries c2 c2 = Except.ok c2 :=
        mergeEntries_self_aux c2 c2 hwf2 (List.suffix_rfl)
      have hmi : mergeInto (FS.dir c2) (FS.dir c2) = Except.ok (FS.dir c2) := by
        rw [mergeInto_dir_dir, hself]
        rfl
      rw [mergeEntries_cons_dir n c2 t2 c (FS.dir c2) (FS.dir c2) hlk hmi]
      rw [setEntry_self c n (FS.dir c2) hlk]
      exact mergeEntries_self_aux c t2 hwf hsuf2
termination_by (sizeOf c, t.length)
decreasing_by
  · simp_wf
    omega
  · simp_wf
    have h1 : sizeOf (n, FS.dir c2) < sizeOf c := List.sizeOf_lt_of_mem hmem
    simp at h1
    left
    omega
  · simp_wf
    omega

/-- Merging a well-formed directory into itself is the identity. -/
theorem mergeEntries_self (c : List (String × FS)) (hwf : wfList c = true) :
    mergeEntries c c = Except.ok c :=
  mergeEntries_self_aux c c hwf List.suffix_rfl

theorem mergeEntries_cons_dir_error (n : String) (c rest ed : List (String × FS))
    (dv : FS) (e : Unit) (hlk : lookupEntry ed n = some dv)
    (hmi : mergeInto (FS.dir c) dv = Except.error e) :
    mergeEntries ((n, FS.dir c) :: rest) ed = Except.error e := by
  conv_lhs => unfold mergeEntries
  split
  · rename_i heq
    rw [hlk] at heq
    exact Option.noConfusion heq
  · rename_i dv2 heq
    rw [hlk] at heq
    injection heq with heq
    subst heq
    split
    · rename_i e2 hmi2
      injection hmi2 with hmi2
      subst hmi2
      split
      · rename_i err herr
        rw [hmi] at herr
      · rename_i m2 hok
        rw [hmi] at hok
        exact Except.noConfusion hok
    · rename_i hmi2
      exact FS.noConfusion hmi2

theorem mergeEntries_cons_file_dir (n : String) (rest ed c2 : List (String × FS))
    (hlk : lookupEntry ed n = some (FS.dir c2)) :
    mergeEntries ((n, FS.file) :: rest) ed = Except.error () := by
  conv_lhs => unfold mergeEntries
  split
  · rename_i heq
    rw [hlk] at heq
    exact Option.noConfusion heq
  · rename_i dv2 heq
    rw [hlk] at heq
    injection heq with heq
    subst heq
    rfl

theorem mergeEntries_append (a b ed : List (String × FS)) :
    mergeEntries (a ++ b) ed =
      match mergeEntries a ed with
      | Except.error e => Except.error e
      | Except.ok m => mergeEntries b m := by
  induction a generalizing ed with
  | nil =>
    rw [List.nil_append, mergeEntries_nil]
  | cons p rest ih =>
    obtain ⟨n, sv⟩ := p
    rw [List.cons_append]
    cases hlk : lookupEntry ed n with
    | none =>
      rw [mergeEntries_cons_none n sv (rest ++ b) ed hlk,
        mergeEntries_cons_none n sv rest ed hlk]
      exact ih (ed ++ [(n, sv)])
    | some dv =>
      cases sv with
      | dir c =>
        cases hmi : mergeInto (FS.dir c) dv with
        | error e =>
          rw [mergeEntries_cons_dir_error n c (rest ++ b) ed dv e hlk hmi,
            mergeEntries_cons_dir_error n c rest ed dv e hlk hmi]
        | ok m =>
          rw [mergeEntries_cons_dir n c (rest ++ b) ed dv m hlk hmi,
            mergeEntries_cons_dir n c rest ed dv m hlk hmi]
          exact ih (setEntry ed n m)
      | file =>
        cases dv with
        | file =>
          rw [mergeEntries_cons_file n (rest ++ b) ed hlk,
            mergeEntries_cons_file n rest ed hlk]
          exact ih (setEntry ed n FS.file)
        | dir c2 =>
          rw [mergeEntries_cons_file_dir n (rest ++ b) ed c2 hlk,
            mergeEntries_cons_file_dir n rest ed c2 hlk]

theorem mergeEntries_disjoint (fs : List (String × FS)) :
    ∀ ed : List (String × FS), (∀ p ∈ fs, p.1 ∉ entryKeys ed) →
    (entryKeys fs).Nodup → mergeEntries fs ed = Except.ok (ed ++ fs) := by
  induction fs with
  | nil =>
    intro ed _ _
    rw [mergeEntries_nil, List.append_nil]
  | cons p rest ih =>
    intro ed h1 h2
    obtain ⟨n, sv⟩ := p
    have hn : n ∉ entryKeys ed := h1 (n, sv) (List.mem_cons_self _ _)
    have hlk : lookupEntry ed n = none := (lookupEntry_eq_none_iff ed n).mpr hn
    rw [mergeEntries_cons_none n sv rest ed hlk]
    have hk : entryKeys ((n, sv) :: rest) = n :: entryKeys rest := rfl
    rw [hk] at h2
    have hrest : ∀ q ∈ rest, q.1 ∉ entryKeys (ed ++ [(n, sv)]) := by
      intro q hq
      have hq1 := h1 q (List.mem_cons_of_mem _ hq)
      have hqn : q.1 ≠ n := by
        rintro he
        refine (List.nodup_cons.mp h2).1 ?_
        rw [← he]
        exact List.mem_map_of_mem Prod.fst hq
      simp only [entryKeys, List.map_append, List.map_cons, List.map_nil,
        List.mem_append, List.mem_singleton]
      push_neg
      exact ⟨by simpa [entryKeys] using hq1, hqn⟩
    rw [ih (ed ++ [(n, sv)]) hrest (List.nodup_cons.mp h2).2]
    rw [List.append_assoc]
    rfl

theorem forall2_append_left {α β : Type} {R : α → β → Prop} (a b : List α) :
    ∀ l : List β, List.Forall₂ R (a ++ b) l →
    ∃ l1 l2, l = l1 ++ l2 ∧ List.Forall₂ R a l1 ∧ List.Forall₂ R b l2 := by
  induction a with
  | nil =>
    intro l h
    exact ⟨[], l, rfl, List.Forall₂.nil, h⟩
  | cons x rest ih =>
    intro l h
    rw [List.cons_append] at h
    rcases List.forall₂_cons_left_iff.mp h with ⟨y, l2, hxy, hrest, hl⟩
    rcases ih l2 hrest with ⟨u1, u2, hu, ha, hb⟩
    exact ⟨y :: u1, u2, by rw [hl, hu]; rfl, List.Forall₂.cons hxy ha, hb⟩

theorem forall2_mono_mem {α β : Type} {R S : α → β → Prop} :
    ∀ {l1 : List α} {l2 : List β}, List.Forall₂ R l1 l2 →
    (∀ a b, a ∈ l1 → R a b → S a b) → List.Forall₂ S l1 l2 := by
  intro l1 l2 h himp
  induction h with
  | nil => exact List.Forall₂.nil
  | cons hr hrest ih =>
    exact List.Forall₂.cons (himp _ _ (List.mem_cons_self _ _) hr)
      (ih fun a b ha hr2 => himp a b (List.mem_cons_of_mem _ ha) hr2)

/-- Relation between an original destination value at key n and the value at
the same key after mergeEntries es ran: untouched keys keep their value; a
source directory is recursively merged; a source file forces file over file. -/
def ValRel (es : List (String × FS)) (n : String) (dv rv : FS) : Prop :=
  match lookupEntry es n with
  | none => rv = dv
  | some (FS.dir c) => mergeInto (FS.dir c) dv = Except.ok rv
  | some FS.file => dv = FS.file ∧ rv = FS.file

def entryRel (es : List (String × FS)) (p q : String × FS) : Prop :=
  p.1 = q.1 ∧ ValRel es p.1 p.2 q.2

theorem ValRel_congr (es es2 : List (String × FS)) (m : String)
    (h : lookupEntry es m = lookupEntry es2 m) (dv rv : FS) :
    ValRel es m dv rv ↔ ValRel es2 m dv rv := by
  unfold ValRel
  rw [h]

theorem lookupEntry_cons_ne (n : String) (sv : FS) (rest : List (String × FS))
    (m : String) (h : n ≠ m) :
    lookupEntry ((n, sv) :: rest) m = lookupEntry rest m := by
  conv_lhs => unfold lookupEntry
  rw [if_neg h]

theorem mergeEntries_spec (es : List (String × FS)) :
    ∀ ed er : List (String × FS), wfList es = true → wfList ed = true →
    mergeEntries es ed = Except.ok er →
    ∃ ed2, er = ed2 ++ es.filter (fun p => decide (p.1 ∉ entryKeys ed)) ∧
      List.Forall₂ (entryRel es) ed ed2 := by
  induction es with
  | nil =>
    intro ed er _ _ h
    rw [mergeEntries_nil] at h
    injection h with h
    refine ⟨ed, by rw [← h]; simp, ?_⟩
    refine List.forall₂_same.mpr ?_
    intro p _
    exact ⟨rfl, rfl⟩
  | cons p rest ih =>
    intro ed er hs hd h
    obtain ⟨n, sv⟩ := p
    rcases (wfList_cons n sv rest).mp hs with ⟨h1, h2, h3⟩
    cases hlk : lookupEntry ed n with
    | none =>
      rw [mergeEntries_cons_none n sv rest ed hlk] at h
      have hn : n ∉ entryKeys ed := (lookupEntry_eq_none_iff ed n).mp hlk
      have hwf2 : wfList (ed ++ [(n, sv)]) = true :=
        wfList_append_single ed n sv hd h2 hn
      rcases ih (ed ++ [(n, sv)]) er h3 hwf2 h with ⟨ed2x, her, hfa⟩
      rcases forall2_append_left ed [(n, sv)] ed2x hfa with ⟨ed2, tail, hsplit, hfa1, hfa2⟩
      rcases List.forall₂_cons_left_iff.mp hfa2 with ⟨q, tail2, hq, htail2, htail⟩
      have htail2nil : tail2 = [] := by
        cases htail2
        rfl
      subst htail2nil
      subst htail
      obtain ⟨hq1, hq2⟩ := hq
      have hlkrest : lookupEntry rest n = none := (lookupEntry_eq_none_iff rest n).mpr h1
      have hq2v : q.2 = sv := by
        unfold ValRel at hq2
        rw [hlkrest] at hq2
        exact hq2
      have hqeq : q = (n, sv) := by
        obtain ⟨qa, qb⟩ := q
        simp at hq1 hq2v
        rw [hq1, hq2v]
      subst hqeq
      refine ⟨ed2, ?_, ?_⟩
      · rw [her, hsplit]
        have hfilter : rest.filter (fun p => decide (p.1 ∉ entryKeys (ed ++ [(n, sv)]))) =
            rest.filter (fun p => decide (p.1 ∉ entryKeys ed)) := by
          apply List.filter_congr
          intro q hq
          have hqn : q.1 ≠ n := by
            rintro he
            refine h1 ?_
            rw [← he]
            exact List.mem_map_of_mem Prod.fst hq
          have hke : entryKeys (ed ++ [(n, sv)]) = entryKeys ed ++ [n] := by
            simp [entryKeys]
          rw [hke]
          simp only [List.mem_append, List.mem_singleton, decide_eq_decide]
          constructor
          · intro hx hc
            exact hx (Or.inl hc)
          · intro hx hc
            rcases hc with hc | hc
            · exact hx hc
            · exact hqn hc
        rw [hfilter]
        have hhead : ((n, sv) :: rest).filter (fun p => decide (p.1 ∉ entryKeys ed)) =
            (n, sv) :: rest.filter (fun p => decide (p.1 ∉ entryKeys ed)) := by
          simp [List.filter_cons, hn]
        rw [hhead, List.append_assoc]
        rfl
      · refine forall2_mono_mem hfa1 ?_
        intro a b ha hr
        obtain ⟨hr1, hr2⟩ := hr
        refine ⟨hr1, ?_⟩
        have han : n ≠ a.1 := by
          rintro he
          refine hn ?_
          rw [he]
          exact List.mem_map_of_mem Prod.fst ha
        exact (ValRel_congr ((n, sv) :: rest) rest a.1
          (lookupEntry_cons_ne n sv rest a.1 han) a.2 b.2).mpr hr2
    | some dv =>
      have hmemdv : (n, dv) ∈ ed := lookupEntry_some_mem ed n dv hlk
      have hdv : wfFS dv = true := wfList_mem_wf ed hd n dv hmemdv
      have hnmem : n ∈ entryKeys ed := by
        by_contra hc
        rw [(lookupEntry_eq_none_iff ed n).mpr hc] at hlk
        exact Option.noConfusion hlk
      rcases lookupEntry_some_decompose ed n dv hlk with ⟨a, b, hab, hna⟩
      have hlkes : lookupEntry ((n, sv) :: rest) n = some sv := by
        unfold lookupEntry
        simp
      have hcontinue : ∃ m, mergeEntries rest (setEntry ed n m) = Except.ok er ∧
          wfFS m = true ∧
          ((∃ c, sv = FS.dir c ∧ mergeInto (FS.dir c) dv = Except.ok m) ∨
           (sv = FS.file ∧ dv = FS.file ∧ m = FS.file)) := by
        cases sv with
        | dir c =>
          cases hmi : mergeInto (FS.dir c) dv with
          | error e =>
            rw [mergeEntries_cons_dir_error n c rest ed dv e hlk hmi] at h
            exact Except.noConfusion h
          | ok m =>
            rw [mergeEntries_cons_dir n c rest ed dv m hlk hmi] at h
            exact ⟨m, h, wf_mergeInto (FS.dir c) dv m h2 hdv hmi, Or.inl ⟨c, rfl, hmi⟩⟩
        | file =>
          cases dv with
          | file =>
            rw [mergeEntries_cons_file n rest ed hlk] at h
            exact ⟨FS.file, h, rfl, Or.inr ⟨rfl, rfl, rfl⟩⟩
          | dir c2 =>
            rw [mergeEntries_cons_file_dir n rest ed c2 hlk] at h
            exact Except.noConfusion h
      rcases hcontinue with ⟨m, hrest, hm, hcase⟩
      have hwfset : wfList (setEntry ed n m) = true := wf_setEntry ed n m hd hm
      rcases ih (setEntry ed n m) er h3 hwfset hrest with ⟨ed2, her, hfa⟩
      have hsetmid : setEntry ed n m = a ++ (n, m) :: b := by
        rw [hab]
        exact setEntry_middle a b n dv m hna
      refine ⟨ed2, ?_, ?_⟩
      · rw [her]
        have hkeyseq : entryKeys (setEntry ed n m) = entryKeys ed := setEntry_keys ed n m
        have hfilter : rest.filter (fun p => decide (p.1 ∉ entryKeys (setEntry ed n m))) =
            rest.filter (fun p => decide (p.1 ∉ entryKeys ed)) := by
          simp only [hkeyseq]
        rw [hfilter]
        have hhead : ((n, sv) :: rest).filter (fun p => decide (p.1 ∉ entryKeys ed)) =
            rest.filter (fun p => decide (p.1 ∉ entryKeys ed)) := by
          simp [List.filter_cons, hnmem]
        rw [hhead]
      · rw [hsetmid] at hfa
        rcases forall2_append_left a ((n, m) :: b) ed2 hfa with
          ⟨a2, btail, hsplit, hfa1, hfa2⟩
        rcases List.forall₂_cons_left_iff.mp hfa2 with ⟨q, b2, hq, hfb, hbtail⟩
        obtain ⟨hq1, hq2⟩ := hq
        have hlkrest : lookupEntry rest n = none := (lookupEntry_eq_none_iff rest n).mpr h1
        have hq2v : q.2 = m := by
          unfold ValRel at hq2
          rw [hlkrest] at hq2
          exact hq2
        have hnd : (entryKeys ed).Nodup := wfList_keys_nodup ed hd
        have hkeysab : entryKeys ed = entryKeys a ++ n :: entryKeys b := by
          rw [hab]
          simp [entryKeys]
        have hnb : n ∉ entryKeys b := by
          rw [hkeysab] at hnd
          have := (List.nodup_cons.mp ((hnd.sublist (List.sublist_append_right _ _)))).1
          exact this
      -- reassemble the Forall₂ over the original ed = a ++ (n, dv) :: b
        rw [hab, hsplit, hbtail]
        refine List.rel_append ?_ (List.Forall₂.cons ?_ ?_)
        · refine forall2_mono_mem hfa1 ?_
          intro x y hx hr
          obtain ⟨hr1, hr2⟩ := hr
          refine ⟨hr1, ?_⟩
          have hxn : n ≠ x.1 := by
            rintro he
            refine hna ?_
            rw [he]
            exact List.mem_map_of_mem Prod.fst hx
          exact (ValRel_congr ((n, sv) :: rest) rest x.1
            (lookupEntry_cons_ne n sv rest x.1 hxn) x.2 y.2).mpr hr2
        · refine ⟨hq1, ?_⟩
          rcases hcase with ⟨c, hsvc, hmi⟩ | ⟨hsv, hdvf, hmf⟩
          · subst hsvc
            unfold ValRel
            rw [hlkes]
            show mergeInto (FS.dir c) dv = Except.ok q.2
            rw [hq2v]
            exact hmi
          · subst hsv
            unfold ValRel
            rw [hlkes]
            show dv = FS.file ∧ q.2 = FS.file
            exact ⟨hdvf, hq2v.trans hmf⟩
        · refine forall2_mono_mem hfb ?_
          intro x y hx hr
          obtain ⟨hr1, hr2⟩ := hr
          refine ⟨hr1, ?_⟩
          have hxn : n ≠ x.1 := by
            rintro he
            refine hnb ?_
            rw [he]
            exact List.mem_map_of_mem Prod.fst hx
          exact (ValRel_congr ((n, sv) :: rest) rest x.1
            (lookupEntry_cons_ne n sv rest x.1 hxn) x.2 y.2).mpr hr2

theorem wfFS_dir (es : List (String × FS)) : wfFS (FS.dir es) = wfList es := by
  unfold wfFS
  rfl

/-- A destination value together with a replacement that re-merging fixes. -/
def domRel (p q : String × FS) : Prop :=
  p.1 = q.1 ∧ ((p.2 = FS.file ∧ q.2 = FS.file) ∨
    ((∃ c, q.2 = FS.dir c) ∧ mergeInto q.2 p.2 = Except.ok q.2))

theorem forall2_keys_eq {R : (String × FS) → (String × FS) → Prop}
    (hI : ∀ p q, R p q → p.1 = q.1) :
    ∀ l l2 : List (String × FS), List.Forall₂ R l l2 → entryKeys l = entryKeys l2 := by
  intro l l2 h
  induction h with
  | nil => rfl
  | cons hr hrest ih =>
    show _ :: entryKeys _ = _ :: entryKeys _
    rw [ih, hI _ _ hr]

theorem mergeEntries_dominating (dsuf d2suf : List (String × FS))
    (hfa : List.Forall₂ domRel dsuf d2suf) :
    ∀ dpre : List (String × FS), (entryKeys (dpre ++ dsuf)).Nodup →
    mergeEntries d2suf (dpre ++ dsuf) = Except.ok (dpre ++ d2suf) := by
  induction hfa with
  | nil =>
    intro dpre _
    rw [List.append_nil, mergeEntries_nil]
  | cons hr hrest ih =>
    rename_i p q dsuf2 d2suf2
    intro dpre hnd
    obtain ⟨n, dv⟩ := p
    obtain ⟨qn, rv⟩ := q
    obtain ⟨hr1, hr2⟩ := hr
    simp only at hr1
    subst hr1
    have hkeys : entryKeys (dpre ++ (n, dv) :: dsuf2) =
        entryKeys dpre ++ n :: entryKeys dsuf2 := by
      simp [entryKeys]
    have hnpre : n ∉ entryKeys dpre := by
      rw [hkeys] at hnd
      have hdisj := List.disjoint_of_nodup_append hnd
      intro hc
      exact hdisj hc (List.mem_cons_self n _)
    have hlk : lookupEntry (dpre ++ (n, dv) :: dsuf2) n = some dv :=
      lookupEntry_middle dpre dsuf2 n dv hnpre
    rcases hr2 with ⟨hdvf, hrvf⟩ | ⟨⟨c, hc⟩, hmerge⟩
    · simp only at hdvf hrvf
      subst hdvf
      subst hrvf
      rw [mergeEntries_cons_file n d2suf2 _ hlk]
      rw [setEntry_middle dpre dsuf2 n FS.file FS.file hnpre]
      have hnd2 : (entryKeys ((dpre ++ [(n, FS.file)]) ++ dsuf2)).Nodup := by
        have he : entryKeys ((dpre ++ [(n, FS.file)]) ++ dsuf2) =
            entryKeys (dpre ++ (n, FS.file) :: dsuf2) := by
          simp [entryKeys]
        rw [he]
        exact hnd
      have hres := ih (dpre ++ [(n, FS.file)]) hnd2
      rw [List.append_assoc, List.singleton_append] at hres
      rw [hres]
      rw [List.append_assoc, List.singleton_append]
    · simp only at hc
      subst hc
      have hmerge2 : mergeInto (FS.dir c) dv = Except.ok (FS.dir c) := hmerge
      rw [mergeEntries_cons_dir n c d2suf2 _ dv (FS.dir c) hlk hmerge2]
      rw [setEntry_middle dpre dsuf2 n dv (FS.dir c) hnpre]
      have hnd2 : (entryKeys ((dpre ++ [(n, FS.dir c)]) ++ dsuf2)).Nodup := by
        have he : entryKeys ((dpre ++ [(n, FS.dir c)]) ++ dsuf2) =
            entryKeys (dpre ++ (n, dv) :: dsuf2) := by
          simp [entryKeys]
        rw [he]
        exact hnd
      have hres := ih (dpre ++ [(n, FS.dir c)]) hnd2
      rw [List.append_assoc, List.singleton_append] at hres
      rw [hres]
      rw [List.append_assoc, List.singleton_append]

/-- C5: the recursive directory merge of DownloadService._merge_directories is
idempotent.  If merging payload S into destination D succeeds and produces the
destination tree R, then merging R into the original destination D succeeds
again and returns R unchanged, and R holds no duplicated entries. -/
theorem merge_directories_idempotent (S D R : List (String × FS))
    (hS : wfList S = true) (hD : wfList D = true)
    (h : mergeEntries S D = Except.ok R) :
    mergeEntries R D = Except.ok R ∧ wfList R = true := by
  have hwfR : wfList R = true := wf_mergeEntries S D R hS hD h
  refine ⟨?_, hwfR⟩
  obtain ⟨ed2, her, hfa⟩ := mergeEntries_spec S D R hS hD h
  have hdom : List.Forall₂ domRel D ed2 := by
    refine forall2_mono_mem hfa ?_
    intro p q hp hr
    obtain ⟨pn, pv⟩ := p
    obtain ⟨qn, qv⟩ := q
    obtain ⟨hr1, hr2⟩ := hr
    simp only at hr1
    refine ⟨hr1, ?_⟩
    unfold ValRel at hr2
    cases hlkS : lookupEntry S pn with
    | none =>
      rw [hlkS] at hr2
      simp only at hr2
      cases pv with
      | file => exact Or.inl ⟨rfl, hr2⟩
      | dir c =>
        refine Or.inr ⟨⟨c, hr2⟩, ?_⟩
        have hwfc : wfList c = true := by
          have := wfList_mem_wf D hD pn (FS.dir c) hp
          rw [wfFS_dir] at this
          exact this
        rw [hr2]
        rw [mergeInto_dir_dir, mergeEntries_self c hwfc]
        rfl
    | some sv =>
      rw [hlkS] at hr2
      cases sv with
      | file =>
        simp only at hr2
        exact Or.inl hr2
      | dir c =>
        simp only at hr2
        cases pv with
        | file =>
          cases c with
          | nil =>
            have hq : qv = FS.file := by
              unfold mergeInto at hr2
              injection hr2 with h2
              exact h2.symm
            exact Or.inl ⟨rfl, hq⟩
          | cons x xs =>
            unfold mergeInto at hr2
            exact Except.noConfusion hr2
        | dir dd =>
          rw [mergeInto_dir_dir] at hr2
          cases hme : mergeEntries c dd with
          | error e =>
            rw [hme] at hr2
            exact Except.noConfusion hr2
          | ok er2 =>
            rw [hme] at hr2
            simp only [Except.map] at hr2
            injection hr2 with hr2
            have hmemS : (pn, FS.dir c) ∈ S := lookupEntry_some_mem S pn _ hlkS
            have hwfc : wfList c = true := by
              have := wfList_mem_wf S hS pn (FS.dir c) hmemS
              rw [wfFS_dir] at this
              exact this
            have hwfdd : wfList dd = true := by
              have := wfList_mem_wf D hD pn (FS.dir dd) hp
              rw [wfFS_dir] at this
              exact this
            have hrec := merge_directories_idempotent c dd er2 hwfc hwfdd hme
            refine Or.inr ⟨⟨er2, hr2.symm⟩, ?_⟩
            rw [← hr2]
            rw [mergeInto_dir_dir, hrec.1]
            rfl
  rw [her]
  rw [mergeEntries_append]
  have ha : mergeEntries ed2 D = Except.ok ed2 := by
    have := mergeEntries_dominating D ed2 hdom [] (by
      rw [List.nil_append]
      exact wfList_keys_nodup D hD)
    rw [List.nil_append, List.nil_append] at this
    exact this
  rw [ha]
  show mergeEntries (S.filter fun p => decide (p.1 ∉ entryKeys D)) ed2 =
    Except.ok (ed2 ++ S.filter fun p => decide (p.1 ∉ entryKeys D))
  have hkeys2 : entryKeys ed2 = entryKeys D :=
    (forall2_keys_eq (fun p q hr => hr.1) D ed2 hfa).symm
  refine mergeEntries_disjoint _ ed2 ?_ ?_
  · intro p hp
    rw [hkeys2]
    have := (List.mem_filter.mp hp).2
    simpa using this
  · have hsub : (S.filter fun p => decide (p.1 ∉ entryKeys D)).Sublist S :=
      List.filter_sublist S
    have : (entryKeys (S.filter fun p => decide (p.1 ∉ entryKeys D))).Sublist
        (entryKeys S) := List.Sublist.map Prod.fst hsub
    exact List.Nodup.sublist this (wfList_keys_nodup S hS)
termination_by sizeOf S
decreasing_by
  simp_wf
  have hsz := List.sizeOf_lt_of_mem hmemS
  simp at hsz
  omega

/-- Closed witness for merge_directories_idempotent at concrete trees. -/
theorem merge_directories_idempotent_witness :
    mergeEntries [("a", FS.dir [("b", FS.file)]), ("x", FS.file)]
        [("a", FS.dir [("b", FS.file)])] =
      Except.ok [("a", FS.dir [("b", FS.file)]), ("x", FS.file)] ∧
    wfList [("a", FS.dir [("b", FS.file)]), ("x", FS.file)] = true :=
  merge_directories_idempotent [("x", FS.file)] [("a", FS.dir [("b", FS.file)])]
    [("a", FS.dir [("b", FS.file)]), ("x", FS.file)] (by rfl) (by rfl) (by rfl)

/-! ### Placement: DownloadService._move_to_destination -/

def isDirEntry (p : String × FS) : Bool :=
  match p.2 with
  | FS.dir _ => true
  | FS.file => false

/-- Model of shutil.move(src, dest_path/n).  An absent target inserts the
entry; an existing file target is replaced by a file source (os.rename) but
rejects a directory source; an existing directory target receives the source
as a child of the same name, erroring when that child name is taken. -/
def moveEntry (dest : List (String × FS)) (n : String) (v : FS) :
    Except Unit (List (String × FS)) :=
  match lookupEntry dest n with
  | none => Except.ok (dest ++ [(n, v)])
  | some FS.file =>
    match v with
    | FS.file => Except.ok (setEntry dest n FS.file)
    | FS.dir _ => Except.error ()
  | some (FS.dir ed) =>
    match lookupEntry ed n with
    | none => Except.ok (setEntry dest n (FS.dir (ed ++ [(n, v)])))
    | some _ => Except.error ()

/-- The album-branch loop of _move_to_destination: each staged entry is merged
when it is a directory already present at the destination, and moved with
shutil.move otherwise. -/
def placeEntries : List (String × FS) → List (String × FS) → Except Unit (List (String × FS))
  | [], dest => Except.ok dest
  | (n, v) :: rest, dest =>
    match v, lookupEntry dest n with
    | FS.dir c, some dv =>
      match mergeInto (FS.dir c) dv with
      | Except.error e => Except.error e
      | Except.ok m => placeEntries rest (setEntry dest n m)
    | _, _ =>
      match moveEntry dest n v with
      | Except.error e => Except.error e
      | Except.ok d2 => placeEntries rest d2

/-- The pre-structured album branch: when the staged root holds exactly one
top-level subdirectory, the contents of that subdirectory are the payload;
otherwise the contents of the staged root itself are. -/
def placeBranch (root de : List (String × FS)) : Except Unit (List (String × FS)) :=
  match root.filter isDirEntry with
  | [(_, FS.dir c)] => placeEntries c de
  | _ => placeEntries root de

/-- Model of DownloadService._move_to_destination.  root is the entry list of
the staged download directory, isAlbum the content-type test, dest0 the tree
already present at the computed destination path (none when absent); the
result is the tree at the destination after the move.  os.makedirs with
exist_ok (album branch) and shutil.rmtree (pattern branch) both fail when the
destination path exists as a regular file. -/
def moveToDestination (root : List (String × FS)) (isAlbum : Bool)
    (dest0 : Option FS) : Except Unit FS :=
  let hasSubfolders := root.any isDirEntry
  if hasSubfolders && isAlbum then
    match dest0 with
    | some FS.file => Except.error ()
    | some (FS.dir de) => Except.map FS.dir (placeBranch root de)
    | none => Except.map FS.dir (placeBranch root [])
  else
    match dest0 with
    | some FS.file => Except.error ()
    | _ => Except.ok (FS.dir root)

theorem placeEntries_disjoint (fs : List (String × FS)) :
    ∀ dest : List (String × FS), (∀ p ∈ fs, p.1 ∉ entryKeys dest) →
    (entryKeys fs).Nodup → placeEntries fs dest = Except.ok (dest ++ fs) := by
  induction fs with
  | nil =>
    intro dest _ _
    rw [List.append_nil]
    rfl
  | cons p rest ih =>
    intro dest h1 h2
    obtain ⟨n, v⟩ := p
    have hn : n ∉ entryKeys dest := h1 (n, v) (List.mem_cons_self _ _)
    have hlk : lookupEntry dest n = none := (lookupEntry_eq_none_iff dest n).mpr hn
    have hk : entryKeys ((n, v) :: rest) = n :: entryKeys rest := rfl
    rw [hk] at h2
    have hrest : ∀ q ∈ rest, q.1 ∉ entryKeys (dest ++ [(n, v)]) := by
      intro q hq
      have hq1 := h1 q (List.mem_cons_of_mem _ hq)
      have hqn : q.1 ≠ n := by
        rintro he
        refine (List.nodup_cons.mp h2).1 ?_
        rw [← he]
        exact List.mem_map_of_mem Prod.fst hq
      simp only [entryKeys, List.map_append, List.map_cons, List.map_nil,
        List.mem_append, List.mem_singleton]
      push_neg
      exact ⟨by simpa [entryKeys] using hq1, hqn⟩
    have hmv : moveEntry dest n v = Except.ok (dest ++ [(n, v)]) := by
      unfold moveEntry
      rw [hlk]
    have hstep : placeEntries ((n, v) :: rest) dest = placeEntries rest (dest ++ [(n, v)]) := by
      conv_lhs => unfold placeEntries
      cases v with
      | file =>
        rw [hlk, hmv]
      | dir c =>
        rw [hlk, hmv]
    rw [hstep, ih (dest ++ [(n, v)]) hrest (List.nodup_cons.mp h2).2]
    rw [List.append_assoc]
    rfl

/-- C4: for every multi-item staged root holding exactly one top-level
subdirectory, placement moves the contents of that subdirectory directly
under the computed destination path, not under an extra copy of the
backend-created folder. -/
theorem move_single_subdir_flattens (root : List (String × FS)) (n : String)
    (c : List (String × FS)) (hone : root.filter isDirEntry = [(n, FS.dir c)])
    (hwf : wfList c = true) :
    moveToDestination root true none = Except.ok (FS.dir c) := by
  have hmem : (n, FS.dir c) ∈ root := by
    have : (n, FS.dir c) ∈ root.filter isDirEntry := by
      rw [hone]
      exact List.mem_cons_self _ _
    exact List.mem_of_mem_filter this
  have hany : root.any isDirEntry = true :=
    List.any_eq_true.mpr ⟨(n, FS.dir c), hmem, rfl⟩
  unfold moveToDestination
  rw [hany]
  simp only [Bool.true_and, if_true]
  unfold placeBranch
  rw [hone]
  have hplace : placeEntries c [] = Except.ok c := by
    have := placeEntries_disjoint c [] (by intro p _; simp [entryKeys])
      (wfList_keys_nodup c hwf)
    rw [List.nil_append] at this
    exact this
  show Except.map FS.dir (placeEntries c []) = Except.ok (FS.dir c)
  rw [hplace]
  rfl

/-- Closed witness for move_single_subdir_flattens: a staged root with a
single Album folder holding a.flac and b.flac places both files directly
under the destination. -/
theorem move_single_subdir_flattens_witness :
    moveToDestination [("Album", FS.dir [("a.flac", FS.file), ("b.flac", FS.file)])]
        true none =
      Except.ok (FS.dir [("a.flac", FS.file), ("b.flac", FS.file)]) :=
  move_single_subdir_flattens
    [("Album", FS.dir [("a.flac", FS.file), ("b.flac", FS.file)])]
    "Album" [("a.flac", FS.file), ("b.flac", FS.file)] (by rfl) (by rfl)

/-! ### Album completeness verification: StreamripService.download_album_async -/

/-- Audio-format extension allow-list of download_album_async. -/
def audioExtensions : List String :=
  [".flac", ".mp3", ".m4a", ".alac", ".ogg", ".wav", ".wma", ".aac", ".opus"]

/-- Python expression f.lower().endswith(exts) over the allow-list. -/
def isAudioName (name : String) : Bool :=
  audioExtensions.any fun e => e.toList.isSuffixOf (name.toList.map Char.toLower)

mutual

/-- Contribution of one named tree to the audio-file count of os.walk. -/
def countAudioFS (name : String) : FS → Nat
  | FS.file => if isAudioName name then 1 else 0
  | FS.dir c => countAudioEntries c

/-- Recursive audio-file count of os.walk over the album folder: regular
files whose lower-cased name ends with an allowed extension. -/
def countAudioEntries : List (String × FS) → Nat
  | [] => 0
  | (name, v) :: rest => countAudioFS name v + countAudioEntries rest

end

def noFilesMsg : String := "Album download failed (no files produced)"

def incompleteMsg (actual expected : Nat) : String :=
  "Incomplete download: " ++ toString actual ++ "/" ++ toString expected ++
    " tracks saved"

/-- The verification step of download_album_async after album_obj.rip():
count the audio files under the album folder and compare the count with the
number of resolved tracks. -/
def albumDownloadVerify (expectedTracks : Nat) (folder : List (String × FS)) :
    Except String Unit :=
  let actual := countAudioEntries folder
  if actual = 0 then Except.error noFilesMsg
  else if actual < expectedTracks then
    Except.error (incompleteMsg actual expectedTracks)
  else Except.ok ()

/-- C3 counterexample: the coordinator does not require the audio-file count
to equal the expected track count exactly; a count above the expectation is
accepted as success. -/
theorem album_verify_accepts_surplus :
    countAudioEntries
        [("a.flac", FS.file), ("b.flac", FS.file), ("c.flac", FS.file)] = 3 ∧
    (3 : Nat) ≠ 2 ∧
    albumDownloadVerify 2
        [("a.flac", FS.file), ("b.flac", FS.file), ("c.flac", FS.file)] =
      Except.ok () := by
  refine ⟨by rfl, by decide, by rfl⟩

/-- C3 (amended): after a multi-item transfer the coordinator counts audio
files recursively; a zero count fails with a fixed no-files message, a
nonzero count below the expected track count fails with a message carrying
both the actual and the expected count, and any nonzero count at or above the
expectation succeeds (a surplus is not rejected). -/
theorem album_verify_completeness (expected : Nat) (folder : List (String × FS)) :
    (countAudioEntries folder = 0 →
      albumDownloadVerify expected folder = Except.error noFilesMsg) ∧
    (0 < countAudioEntries folder → countAudioEntries folder < expected →
      albumDownloadVerify expected folder =
          Except.error (incompleteMsg (countAudioEntries folder) expected) ∧
        (toString (countAudioEntries folder)).toList <:+:
          (incompleteMsg (countAudioEntries folder) expected).toList ∧
        (toString expected).toList <:+:
          (incompleteMsg (countAudioEntries folder) expected).toList) ∧
    (0 < countAudioEntries folder → expected ≤ countAudioEntries folder →
      albumDownloadVerify expected folder = Except.ok ()) := by
  refine ⟨?_, ?_, ?_⟩
  · intro h0
    unfold albumDownloadVerify
    rw [if_pos h0]
  · intro hpos hlt
    refine ⟨?_, ?_, ?_⟩
    · unfold albumDownloadVerify
      rw [if_neg (by omega), if_pos hlt]
    · refine ⟨"Incomplete download: ".toList,
        ("/" ++ toString expected ++ " tracks saved").toList, ?_⟩
      simp [incompleteMsg]
    · refine ⟨("Incomplete download: " ++ toString (countAudioEntries folder) ++ "/").toList,
        " tracks saved".toList, ?_⟩
      simp [incompleteMsg]
  · intro hpos hge
    unfold albumDownloadVerify
    rw [if_neg (by omega), if_neg (by omega)]

/-- Closed witness for album_verify_completeness: 8 staged tracks out of 10
expected fail with a message citing 8 and 10. -/
theorem album_verify_completeness_witness :
    albumDownloadVerify 10
        [("t1.flac", FS.file), ("t2.flac", FS.file), ("t3.flac", FS.file),
         ("t4.flac", FS.file), ("t5.flac", FS.file), ("t6.flac", FS.file),
         ("t7.flac", FS.file), ("t8.flac", FS.file)] =
      Except.error (incompleteMsg 8 10) :=
  ((album_verify_completeness 10
      [("t1.flac", FS.file), ("t2.flac", FS.file), ("t3.flac", FS.file),
       ("t4.flac", FS.file), ("t5.flac", FS.file), ("t6.flac", FS.file),
       ("t7.flac", FS.file), ("t8.flac", FS.file)]).2.1 (by decide) (by decide)).1

/-! ### Resolver: StreamripService.smart_search and
DownloadService._search_content -/

/-- A normalized search-result item as produced by the search methods. -/
structure Track where
  id : String
  title : Option String
  artist : Option String
  album : Option String
deriving DecidableEq

/-- Python truthiness of the results variable: None and the empty list are
falsy (the code tests results and len(results) > 0). -/
def resTruthy : Option (List Track) → Bool
  | none => false
  | some l => !l.isEmpty

/-- Python `x or default` over an optional string: None and the empty string
fall back to the default. -/
def pyOr (e : Option String) (d : String) : String :=
  match e with
  | none => d
  | some s => if s = "" then d else s

def noResultsMsg : String := "No results found on any streaming service"

/-- Model of StreamripService.smart_search.  searchT and searchA are the
search_track / search_album oracles (query, service) to (results, error);
primary and fallback are the configured service names; the fallback is tried
only when use_fallback holds and the fallback name is truthy.  Returns
(results, winning service, error) exactly as the Python function does. -/
def smart_search
    (searchT searchA : String → String → Option (List Track) × Option String)
    (primary fallback : String) (contentType : String) (query : String)
    (useFallback : Bool) :
    Option (List Track) × Option String × Option String :=
  let search := fun (q svc : String) =>
    if contentType = "track" then searchT q svc else searchA q svc
  let r1 := search query primary
  if resTruthy r1.1 then (r1.1, some primary, none) else
  let cleaned := clean_search_query query
  let r2 := if cleaned ≠ query then search cleaned primary else r1
  if resTruthy r2.1 then (r2.1, some primary, none) else
  if useFallback && !fallback.isEmpty then
    let r3 := search query fallback
    if resTruthy r3.1 then (r3.1, some fallback, none) else
    let r4 := if cleaned ≠ query then search cleaned fallback else r3
    if resTruthy r4.1 then (r4.1, some fallback, none) else
    (none, none, some (pyOr r4.2 noResultsMsg))
  else
    (none, none, some (pyOr r2.2 noResultsMsg))

/-- The request columns touched by the streaming-search part of
_search_content. -/
structure ReqModel where
  title : String
  artist : Option String
  album : Option String
  contentType : String
  streaming_service : Option String
  streaming_url : Option String
deriving DecidableEq

/-- Python truthiness for an optional string column. -/
def optTruthy : Option String → Bool
  | none => false
  | some s => !s.isEmpty

/-- Query built by _search_content: the title, with the artist appended when
it is truthy. -/
def buildQuery (req : ReqModel) : String :=
  if optTruthy req.artist then req.title ++ " " ++ req.artist.getD "" else req.title

/-- Content type passed to smart_search: track for songs, album otherwise. -/
def contentTypeOf (req : ReqModel) : String :=
  if req.contentType = "song" then "track" else "album"

def defaultTrack : Track := ⟨"", none, none, none⟩

/-- Model of the streaming-search part of DownloadService._search_content.
The MusicBrainz enrichment that follows touches only the musicbrainz id
columns, swallows its own failures and cannot change the outcome, so it is
not part of the model.  Returns (success, error, updated request). -/
def searchContent
    (searchT searchA : String → String → Option (List Track) × Option String)
    (primary fallback : String) (req : ReqModel) :
    Bool × Option String × ReqModel :=
  if !(optTruthy req.streaming_url) || !(optTruthy req.streaming_service) then
    let res := smart_search searchT searchA primary fallback
      (contentTypeOf req) (buildQuery req) true
    if resTruthy res.1 then
      let best := (res.1.getD []).headD defaultTrack
      let req1 := { req with streaming_service := res.2.1,
                             streaming_url := some best.id }
      let req2 := if req1.title.isEmpty && optTruthy best.title then
          { req1 with title := best.title.getD "" } else req1
      let req3 := if !(optTruthy req2.artist) && optTruthy best.artist then
          { req2 with artist := best.artist } else req2
      let req4 := if !(optTruthy req3.album) && optTruthy best.album then
          { req3 with album := best.album } else req3
      (true, none, req4)
    else
      (false, some (pyOr res.2.2 "No results found on streaming services"), req)
  else
    (true, none, req)

theorem smart_search_fallback_aux
    (searchT searchA : String → String → Option (List Track) × Option String)
    (primary fallback ct query : String) (items : List Track)
    (e1 e2 e3 : Option String)
    (hfb : fallback.isEmpty = false)
    (hp1 : (if ct = "track" then searchT query primary
        else searchA query primary) = (some [], e1))
    (hp2 : (if ct = "track" then searchT (clean_search_query query) primary
        else searchA (clean_search_query query) primary) = (some [], e2))
    (hf : (if ct = "track" then searchT query fallback
        else searchA query fallback) = (some items, e3))
    (hne : items ≠ []) :
    smart_search searchT searchA primary fallback ct query true =
      (some items, some fallback, none) := by
  have hemp : items.isEmpty = false := by
    cases items with
    | nil => exact absurd rfl hne
    | cons a l => rfl
  by_cases hc : clean_search_query query = query
  · simp only [smart_search, hp1, hc, ne_eq, not_true_eq_false, if_false,
      resTruthy, Bool.not_true, Bool.and_self, hfb, Bool.not_false, hf, hemp,
      List.isEmpty_nil, if_true, Bool.true_and]
    simp [hemp]
  · simp only [smart_search, hp1, hp2, ne_eq, hc, not_false_eq_true, if_true,
      resTruthy, Bool.not_true, hfb, Bool.not_false, hf, hemp,
      List.isEmpty_nil, Bool.true_and]
    simp [hemp]

/-- C2: an empty result set from the primary backend for both the raw and the
normalized query, together with a non-empty result set from the fallback
backend, makes smart_search return the fallback's items and the fallback's
identity, and _search_content records that identity as the request's
streaming_service and the first item's id as its streaming_url. -/
theorem resolver_fallback_wins
    (searchT searchA : String → String → Option (List Track) × Option String)
    (primary fallback : String) (req : ReqModel) (items : List Track)
    (e1 e2 e3 : Option String)
    (hurl : optTruthy req.streaming_url = false)
    (hfb : fallback.isEmpty = false)
    (hp1 : (if contentTypeOf req = "track" then searchT (buildQuery req) primary
        else searchA (buildQuery req) primary) = (some [], e1))
    (hp2 : (if contentTypeOf req = "track"
        then searchT (clean_search_query (buildQuery req)) primary
        else searchA (clean_search_query (buildQuery req)) primary) = (some [], e2))
    (hf : (if contentTypeOf req = "track" then searchT (buildQuery req) fallback
        else searchA (buildQuery req) fallback) = (some items, e3))
    (hne : items ≠ []) :
    smart_search searchT searchA primary fallback (contentTypeOf req)
        (buildQuery req) true = (some items, some fallback, none) ∧
    (searchContent searchT searchA primary fallback req).2.2.streaming_service =
      some fallback ∧
    (searchContent searchT searchA primary fallback req).2.2.streaming_url =
      some (items.headD defaultTrack).id := by
  have hs := smart_search_fallback_aux searchT searchA primary fallback
    (contentTypeOf req) (buildQuery req) items e1 e2 e3 hfb hp1 hp2 hf hne
  have hemp : items.isEmpty = false := by
    cases items with
    | nil => exact absurd rfl hne
    | cons a l => rfl
  refine ⟨hs, ?_, ?_⟩
  · unfold searchContent
    rw [hurl, hs]
    simp only [Bool.not_false, Bool.true_or, if_true, resTruthy, hemp,
      Bool.not_false]
    split_ifs <;> rfl
  · unfold searchContent
    rw [hurl, hs]
    simp only [Bool.not_false, Bool.true_or, if_true, resTruthy, hemp,
      Bool.not_false]
    split_ifs <;> rfl

def witOracleT : String → String → Option (List Track) × Option String :=
  fun _ s => if s = "deezer" then (some [⟨"42", none, none, none⟩], none)
    else (some [], none)

def witOracleA : String → String → Option (List Track) × Option String :=
  fun _ _ => (some [], none)

def witReq : ReqModel := ⟨"Song", some "Artist", none, "song", none, none⟩

/-- Closed witness for resolver_fallback_wins at concrete oracles: the
primary backend qobuz is empty, the fallback deezer holds one item. -/
theorem resolver_fallback_wins_witness :
    smart_search witOracleT witOracleA "qobuz" "deezer" (contentTypeOf witReq)
        (buildQuery witReq) true =
      (some [⟨"42", none, none, none⟩], some "deezer", none) ∧
    (searchContent witOracleT witOracleA "qobuz" "deezer" witReq).2.2.streaming_service =
      some "deezer" ∧
    (searchContent witOracleT witOracleA "qobuz" "deezer" witReq).2.2.streaming_url =
      some ([(⟨"42", none, none, none⟩ : Track)].headD defaultTrack).id :=
  resolver_fallback_wins witOracleT witOracleA "qobuz" "deezer" witReq
    [⟨"42", none, none, none⟩] none none none (by rfl) (by rfl)
    (by rfl) (by rfl) (by rfl) (by decide)

/-- Substring test over character lists (no aggregation check needs more). -/
def containsSub : List Char → List Char → Bool
  | [], needle => needle.isEmpty
  | c :: rest, needle => needle.isPrefixOf (c :: rest) || containsSub rest needle

/-- C9 counterexample: with every backend/query attempt empty and no backend
error text, smart_search returns the fixed generic message, which names
neither the primary backend qobuz nor the fallback backend deezer, so the
returned error is not an aggregate naming every backend tried. -/
theorem smart_search_error_not_aggregated :
    smart_search (fun _ _ => (some [], none)) (fun _ _ => (some [], none))
        "qobuz" "deezer" "track" "abc" true =
      (none, none, some noResultsMsg) ∧
    containsSub noResultsMsg.toList "qobuz".toList = false ∧
    containsSub noResultsMsg.toList "deezer".toList = false := by
  refine ⟨by rfl, by decide, by decide⟩

/-- C9 (amended): when every backend/query attempt returns an empty result
set, smart_search returns no items and no service together with a single
error message: the last executed attempt's error when that is truthy, or the
fixed generic message; no aggregation over the backends tried happens. -/
theorem smart_search_error_last
    (searchT searchA : String → String → Option (List Track) × Option String)
    (primary fallback ct query : String) (e1 e2 e3 e4 : Option String)
    (hfb : fallback.isEmpty = false)
    (hp1 : (if ct = "track" then searchT query primary
        else searchA query primary) = (some [], e1))
    (hp2 : (if ct = "track" then searchT (clean_search_query query) primary
        else searchA (clean_search_query query) primary) = (some [], e2))
    (hf3 : (if ct = "track" then searchT query fallback
        else searchA query fallback) = (some [], e3))
    (hf4 : (if ct = "track" then searchT (clean_search_query query) fallback
        else searchA (clean_search_query query) fallback) = (some [], e4)) :
    smart_search searchT searchA primary fallback ct query true =
      (none, none,
        some (pyOr (if clean_search_query query ≠ query then e4 else e3)
          noResultsMsg)) := by
  by_cases hc : clean_search_query query = query
  · simp only [smart_search, hp1, hc, ne_eq, not_true_eq_false, if_false,
      resTruthy, hfb, Bool.not_false, hf3, List.isEmpty_nil, Bool.true_and]
    simp [hc]
  · simp only [smart_search, hp1, hp2, hf3, hf4, ne_eq, hc, not_false_eq_true,
      if_true, resTruthy, hfb, Bool.not_false, List.isEmpty_nil, Bool.true_and]
    simp [hc]

/-- Closed witness for smart_search_error_last: the last attempt's error
text is returned verbatim. -/
theorem smart_search_error_last_witness :
    smart_search (fun _ _ => (some [], some "boom"))
        (fun _ _ => (some [], some "boom")) "qobuz" "deezer" "track" "a!" true =
      (none, none,
        some (pyOr (if clean_search_query "a!" ≠ "a!" then some "boom"
          else some "boom") noResultsMsg)) :=
  smart_search_error_last (fun _ _ => (some [], some "boom"))
    (fun _ _ => (some [], some "boom")) "qobuz" "deezer" "track" "a!"
    (some "boom") (some "boom") (some "boom") (some "boom")
    (by rfl) (by rfl) (by rfl) (by rfl) (by rfl)

/-! ### Concurrency limiter: patched_global_download_semaphore -/

/-- The two kinds of context the patched limiter factory can hand out. -/
inductive SemContext where
  | nullcontext : SemContext
  | semaphore : Int → SemContext
deriving DecidableEq

/-- Model of patched_global_download_semaphore in streamrip_service.py.
loopRunning models asyncio.get_running_loop succeeding; concurrency and
maxConnections model c.concurrency and c.max_connections.  The per-loop
dictionary only memoizes the semaphore created on first call for a loop and
never changes which context is produced, so it is not part of the model. -/
def patched_global_download_semaphore (loopRunning concurrency : Bool)
    (maxConnections : Int) : SemContext :=
  if loopRunning then
    let max_connections : Int :=
      if concurrency then (if maxConnections > 0 then maxConnections else 1)
      else 1
    if max_connections ≤ 0 then SemContext.nullcontext
    else SemContext.semaphore max_connections
  else SemContext.nullcontext

/-- C8 counterexample: with an event loop running, concurrency enabled and a
non-positive configured capacity, the factory returns a bounded semaphore of
capacity 1 instead of the no-limit context. -/
theorem semaphore_nonpositive_not_unlimited :
    patched_global_download_semaphore true true (-5) = SemContext.semaphore 1 ∧
    SemContext.semaphore 1 ≠ SemContext.nullcontext := by
  refine ⟨by rfl, by decide⟩

/-- C8 (amended): while an event loop is running, a non-positive configured
capacity is clamped to 1 before the non-positivity guard runs, so the guard
is dead code and a bounded semaphore of capacity 1 is produced; the no-limit
context is returned only when no event loop is running. -/
theorem semaphore_nonpositive_clamped (concurrency : Bool) (m : Int)
    (hm : m ≤ 0) :
    patched_global_download_semaphore true concurrency m =
      SemContext.semaphore 1 ∧
    patched_global_download_semaphore false concurrency m =
      SemContext.nullcontext := by
  constructor
  · unfold patched_global_download_semaphore
    cases concurrency with
    | false => rfl
    | true =>
      simp only [if_true]
      rw [if_neg (by omega : ¬ m > 0)]
      rfl
  · rfl

/-- Closed witness for semaphore_nonpositive_clamped at capacity -1. -/
theorem semaphore_nonpositive_clamped_witness :
    patched_global_download_semaphore true true (-1) = SemContext.semaphore 1 :=
  (semaphore_nonpositive_clamped true (-1) (by decide)).1

/-! ### Path sanitization and the destination pattern:
DownloadService._sanitize_path and _build_destination_path -/

/-- The character set removed by _sanitize_path. -/
def invalidPathChars : List Char := ['<', '>', ':', '"', '|', '?', '*']

def isDotOrSpace (c : Char) : Bool := c = '.' || c = ' '

/-- Python str.strip applied with dot and space: remove leading and trailing
dots and spaces. -/
def stripDotSpace (l : List Char) : List Char :=
  ((l.dropWhile isDotOrSpace).reverse.dropWhile isDotOrSpace).reverse

/-- Model of DownloadService._sanitize_path: drop every invalid character,
then strip leading and trailing dots and spaces. -/
def sanitize_path (s : String) : String :=
  (stripDotSpace (s.toList.filter fun c => !decide (c ∈ invalidPathChars))).asString

/-- Python str.replace over character lists, with fuel for structural
termination; one fuel unit is spent per emitted position, so the input
length always suffices. -/
def replaceSubFuel (pat rep : List Char) : Nat → List Char → List Char
  | 0, l => l
  | _, [] => []
  | fuel + 1, c :: t =>
    if pat.isPrefixOf (c :: t) && !pat.isEmpty then
      rep ++ replaceSubFuel pat rep fuel ((c :: t).drop pat.length)
    else c :: replaceSubFuel pat rep fuel t

/-- Python str.replace: replace every occurrence, scanning left to right. -/
def replaceSub (pat rep l : List Char) : List Char :=
  replaceSubFuel pat rep l.length l

/-- The placeholder substitution loop of _build_destination_path: the three
placeholders are replaced in dict order with sanitized values; a falsy artist
becomes the fixed placeholder and a falsy album the empty string. -/
def substitute_pattern (pattern : String) (artist : Option String)
    (title : String) (album : Option String) : String :=
  let p1 := replaceSub ("{artist}".toList)
    (sanitize_path (pyOr artist "Unknown Artist")).toList pattern.toList
  let p2 := replaceSub ("{title}".toList) (sanitize_path title).toList p1
  let p3 := replaceSub ("{album}".toList) (sanitize_path (pyOr album "")).toList p2
  p3.asString

/-- Model of DownloadService._build_destination_path; os.path.join is modeled
as inserting one separator, which is its behavior for the relative patterns
the settings use. -/
def build_destination_path (outputPath pattern : String) (artist : Option String)
    (title : String) (album : Option String) : String :=
  outputPath ++ "/" ++ substitute_pattern pattern artist title album

/-- Number of path separators in a string. -/
def countSlash (s : String) : Nat := s.toList.count '/'

theorem head_dropWhile_false (p : Char → Bool) (l : List Char) (c : Char)
    (h : (l.dropWhile p).head? = some c) : p c = false := by
  induction l with
  | nil => simp [List.dropWhile] at h
  | cons a t ih =>
    rw [List.dropWhile_cons] at h
    split at h
    · exact ih h
    · rename_i hpa
      injection h with h
      subst h
      simpa using hpa

theorem mem_dropWhile_of (p : Char → Bool) (l : List Char) (c : Char)
    (hc : c ∈ l) (hp : p c = false) : c ∈ l.dropWhile p := by
  induction l with
  | nil => exact absurd hc (List.not_mem_nil c)
  | cons a t ih =>
    rw [List.dropWhile_cons]
    split
    · rename_i hpa
      rcases List.mem_cons.mp hc with h | h
      · subst h
        rw [hp] at hpa
        exact absurd hpa (by simp)
      · exact ih h
    · exact hc

theorem mem_stripDotSpace_of (l : List Char) (c : Char) (hc : c ∈ l)
    (hp : isDotOrSpace c = false) : c ∈ stripDotSpace l := by
  unfold stripDotSpace
  rw [List.mem_reverse]
  refine mem_dropWhile_of _ _ c ?_ hp
  rw [List.mem_reverse]
  exact mem_dropWhile_of _ _ c hc hp

theorem mem_of_mem_stripDotSpace (l : List Char) (c : Char)
    (hc : c ∈ stripDotSpace l) : c ∈ l := by
  unfold stripDotSpace at hc
  rw [List.mem_reverse] at hc
  have h1 := (List.dropWhile_sublist _).subset hc
  rw [List.mem_reverse] at h1
  exact (List.dropWhile_sublist _).subset h1

/-- C10: _sanitize_path removes exactly the seven invalid characters and
strips leading and trailing spaces and dots; every other character survives,
including the path separators, so substituting an artist name that carries a
separator into the destination pattern yields more directory levels than the
pattern template spells out. -/
theorem sanitize_preserves_separators :
    (∀ s : String, ∀ c ∈ (sanitize_path s).toList,
      c ∈ s.toList ∧ c ∉ invalidPathChars) ∧
    (∀ s : String, ∀ c, (sanitize_path s).toList.head? = some c →
      isDotOrSpace c = false) ∧
    (∀ s : String, ∀ c, (sanitize_path s).toList.getLast? = some c →
      isDotOrSpace c = false) ∧
    (∀ s : String, ∀ c ∈ s.toList, c ∉ invalidPathChars →
      isDotOrSpace c = false → c ∈ (sanitize_path s).toList) ∧
    '/' ∉ invalidPathChars ∧ '\\' ∉ invalidPathChars ∧
    countSlash (substitute_pattern "{artist}/{artist} - {title}"
      (some "AC/DC") "Thunderstruck" none) = 3 ∧
    countSlash "{artist}/{artist} - {title}" = 1 := by
  have htl : ∀ s : String,
      (sanitize_path s).toList =
        stripDotSpace (s.toList.filter fun c => !decide (c ∈ invalidPathChars)) :=
    fun s => rfl
  refine ⟨?_, ?_, ?_, ?_, by decide, by decide, by rfl, by rfl⟩
  · intro s c hc
    rw [htl] at hc
    have h1 := mem_of_mem_stripDotSpace _ c hc
    have h2 := List.mem_filter.mp h1
    refine ⟨h2.1, ?_⟩
    have := h2.2
    simpa using this
  · intro s c hc
    rw [htl] at hc
    unfold stripDotSpace at hc
    rw [List.head?_reverse] at hc
    have hsuffix : (((s.toList.filter fun c => !decide (c ∈ invalidPathChars)).dropWhile
        isDotOrSpace).reverse.dropWhile isDotOrSpace) <:+
        ((s.toList.filter fun c => !decide (c ∈ invalidPathChars)).dropWhile
          isDotOrSpace).reverse := List.dropWhile_suffix isDotOrSpace
    rcases hsuffix with ⟨u, hu⟩
    have hne : ((s.toList.filter fun c => !decide (c ∈ invalidPathChars)).dropWhile
        isDotOrSpace).reverse.dropWhile isDotOrSpace ≠ [] := by
      intro h0
      rw [h0] at hc
      simp at hc
    have heq := List.getLast?_append_of_ne_nil u hne
    rw [hu] at heq
    rw [← heq] at hc
    rw [List.getLast?_reverse] at hc
    exact head_dropWhile_false _ _ c hc
  · intro s c hc
    rw [htl] at hc
    unfold stripDotSpace at hc
    rw [List.getLast?_reverse] at hc
    exact head_dropWhile_false _ _ c hc
  · intro s c hc hinv hds
    rw [htl]
    refine mem_stripDotSpace_of _ c ?_ hds
    refine List.mem_filter.mpr ⟨hc, ?_⟩
    simpa using hinv

/-- Closed witness for sanitize_preserves_separators: the separator of the
artist AC/DC survives sanitization. -/
theorem sanitize_preserves_separators_witness :
    '/' ∈ (sanitize_path "AC/DC").toList :=
  sanitize_preserves_separators.2.2.2.1 "AC/DC" '/' (by decide) (by decide)
    (by decide)

end Riparr
